import Mathlib

/-!
# Matrix-matrix multiplication kernel (`MyMxM.cpp`)

A shallow embedding of the kernel `MyMxM::operator()`, of `initializeMatrix`
and of the dispatch performed by `main`, followed by the properties proved
about them.

Conventions of the embedding.

* A buffer is a `List` of its elements in row-major order.  An access through
  a raw pointer or a view is an `Option`-valued lookup, so an access outside
  the buffer (undefined behaviour in C++) shows up as `none`.
* A thread position is the pair `(x, y)` with `x = getIdx<Grid, Threads>(acc)[0]`
  and `y = getIdx<Grid, Threads>(acc)[1]`.
* Kernel indices (`size_t`) are natural numbers: `N` is the side of buffers
  of `N * N` elements, every index the kernel forms is below `N * N`, and an
  allocated buffer has fewer than `2 ^ 64` elements, so this arithmetic never
  wraps.  Where a computed `size_t` value is stored as data
  (`initializeMatrix`), the wrap at `2 ^ 64` and the cast to 32 bits are
  modelled explicitly.
* The kernel declares its elements `float`, `main` binds `std::uint32_t`
  buffers.  Elements are modelled as integers: arithmetic is exact integer
  arithmetic followed by a reduction `red`, which is `id` for exact numbers
  and `u32` for `std::uint32_t`.  Floating-point rounding is not modelled.
-/

namespace MxM

/-! ## Data model -/

/-- The three buffers bound to one kernel invocation. -/
structure Mem where
  A : List Int
  B : List Int
  C : List Int
deriving DecidableEq, Repr

/-- Reduction of an exact value into `std::uint32_t`. -/
def u32 (v : Int) : Int := v % 2 ^ 32

/-- All three buffers hold `N * N` elements. -/
def Mem.WF (N : Nat) (m : Mem) : Prop :=
  m.A.length = N * N ∧ m.B.length = N * N ∧ m.C.length = N * N

instance (N : Nat) (m : Mem) : Decidable (m.WF N) := by
  unfold Mem.WF; infer_instance

/-! ## The kernel -/

/-- The accumulator `sum` of thread `(x, y)` after `j` iterations of
`for (k = 0; k < N; k++) sum += A[y * N + k] * B[k * N + x];`
started from `sum = 0`.  The result is `none` when a read leaves its buffer. -/
def sumAfter (red : Int → Int) (A B : List Int) (N x y : Nat) : Nat → Option Int
  | 0 => some 0
  | k + 1 =>
    match sumAfter red A B N x y k, A[y * N + k]?, B[k * N + x]? with
    | some sum, some a, some b => some (red (sum + red (a * b)))
    | _, _, _ => none

/-- One invocation of `MyMxM::operator()` at thread position `p = (x, y)`. -/
def MyMxM (red : Int → Int) (N : Nat) (m : Mem) (p : Nat × Nat) : Option Mem :=
  let x := p.1
  let y := p.2
  if x < N ∧ y < N then
    match sumAfter red m.A m.B N x y N with
    | some sum =>
      if y * N + x < m.C.length then
        some { m with C := m.C.set (y * N + x) sum }
      else none
    | none => none
  else some m

/-- The kernel run once at each thread position of `ps`, in list order. -/
def runThreads (red : Int → Int) (N : Nat) : List (Nat × Nat) → Mem → Option Mem
  | [], m => some m
  | p :: ps, m =>
    match MyMxM red N m p with
    | some m' => runThreads red N ps m'
    | none => none

/-- Which buffer an access goes to. -/
inductive Buf where
  | A
  | B
  | C
deriving DecidableEq, Repr

/-- The reads of iterations `0 .. j - 1` of the kernel loop at `(x, y)`. -/
def loopAccesses (N x y : Nat) : Nat → List (Buf × Nat)
  | 0 => []
  | k + 1 => loopAccesses N x y k ++ [(Buf.A, y * N + k), (Buf.B, k * N + x)]

/-- Every buffer index one kernel invocation at `p = (x, y)` touches, in
program order: the reads of `A` and `B` in the loop, then the write of `C`. -/
def accesses (N : Nat) (p : Nat × Nat) : List (Buf × Nat) :=
  if p.1 < N ∧ p.2 < N then
    loopAccesses N p.1 p.2 N ++ [(Buf.C, p.2 * N + p.1)]
  else []

/-- Length of the buffer an access goes to. -/
def Mem.size (m : Mem) : Buf → Nat
  | Buf.A => m.A.length
  | Buf.B => m.B.length
  | Buf.C => m.C.length

/-- Entry `(row y, column x)` of the matrix product of the row-major `N × N`
matrices `A` and `B`. -/
def prodEntry (A B : List Int) (N x y : Nat) : Int :=
  ∑ k ∈ Finset.range N, A.getD (y * N + k) 0 * B.getD (k * N + x) 0

/-- Every thread position of a grid of `gx × gy` threads. -/
def gridThreads (gx gy : Nat) : List (Nat × Nat) :=
  (List.range gy).flatMap fun y => (List.range gx).map fun x => (x, y)

/-! ## Work division and dispatch -/

/-- A work division: blocks per grid, threads per block, elements per thread,
each per dimension. -/
structure WorkDivision where
  gridBlocks : Nat × Nat
  blockThreads : Nat × Nat
  threadElems : Nat × Nat
deriving DecidableEq, Repr

/-- Rounded-up quotient. -/
def ceilDiv (a b : Nat) : Nat := (a + b - 1) / b

/-- Modelled from the spec: `alpaka::workdiv::getValidWorkDiv` is library code
that is not part of the sources.  Section 4.4: for the chosen block size,
grid-in-blocks = ceil(globalExtent / (blockSize × elementsPerThread)) in each
dimension.  The block size that the library picks is a parameter. -/
def computeWorkDivision (blockSize globalExtent : Nat × Nat) (elementsPerThread : Nat) :
    WorkDivision :=
  { gridBlocks := (ceilDiv globalExtent.1 (blockSize.1 * elementsPerThread),
                   ceilDiv globalExtent.2 (blockSize.2 * elementsPerThread))
    blockThreads := blockSize
    threadElems := (elementsPerThread, elementsPerThread) }

/-- Modelled from the spec: `alpaka::exec` is library code that is not part of
the sources.  Section 4.5: one logical thread per position of the grid, whose
global coordinate is block index × block size + thread-within-block index. -/
def threadPositions (wd : WorkDivision) : List (Nat × Nat) :=
  (List.range wd.gridBlocks.2).flatMap fun b2 =>
  (List.range wd.gridBlocks.1).flatMap fun b1 =>
  (List.range wd.blockThreads.2).flatMap fun t2 =>
  (List.range wd.blockThreads.1).map fun t1 =>
    (b1 * wd.blockThreads.1 + t1, b2 * wd.blockThreads.2 + t2)

/-- Matrix size of `main`. -/
def mainN : Nat := 128

/-- Elements per thread requested by `main`. -/
def mainElementsPerThread : Nat := 8

/-- The work division `main` obtains: serial accelerator (one thread per
block), extent `(N, N)`, `elementsPerThread`. -/
def mainWorkDiv : WorkDivision :=
  computeWorkDivision (1, 1) (mainN, mainN) mainElementsPerThread

/-- The kernel dispatch of `main`: `exec` of `MyMxM` with `mainWorkDiv`. -/
def mainExec (red : Int → Int) (m : Mem) : Option Mem :=
  runThreads red mainN (threadPositions mainWorkDiv) m

/-- The part of `main` from the copies to the device to the copy back:
`memcpy(bufAccA, bufHostA)`, `memcpy(bufAccB, bufHostB)`, the kernel dispatch,
`memcpy(bufHostC, bufAccC)`.  `accC` is the content of the freshly allocated
`bufAccC`, which `main` never initialises.  The result is the final `bufHostC`. -/
def mainHostC (red : Int → Int) (hostA hostB accC : List Int) : Option (List Int) :=
  match mainExec red { A := hostA, B := hostB, C := accC } with
  | some m => some m.C
  | none => none

/-- A `128 × 128` buffer holding `v` everywhere. -/
def constBuf (v : Int) : List Int := List.replicate (mainN * mainN) v

/-! ## `initializeMatrix` -/

/-- A two-dimensional view (the argument `span` of `initializeMatrix`): its
extents, its elements in row-major order, and the coordinates that have been
assigned through it so far, oldest first. -/
structure View where
  extent0 : Nat
  extent1 : Nat
  data : List Nat
  written : List (Nat × Nat)
deriving DecidableEq, Repr

/-- The assignment `span(i, j) = v`; `none` when `(i, j)` lies outside the view. -/
def View.assign (s : View) (i j v : Nat) : Option View :=
  if i < s.extent0 ∧ j < s.extent1 ∧ i * s.extent1 + j < s.data.length then
    some { s with data := s.data.set (i * s.extent1 + j) v
                  written := s.written ++ [(i, j)] }
  else none

/-- Arithmetic in `Idx = std::size_t` wraps at `2 ^ 64`. -/
def wrapIdx (v : Nat) : Nat := v % 2 ^ 64

/-- The cast `static_cast<DataType>` to `std::uint32_t`. -/
def castDataType (v : Nat) : Nat := v % 2 ^ 32

/-- The view after `n` iterations of the inner loop of row `i`:
`for (j = 0; j < numColumns; ++j) span(i, j) = static_cast<DataType>(i * numColumns + j);` -/
def initRow (numColumns i : Nat) (s : View) : Nat → Option View
  | 0 => some s
  | j + 1 =>
    match initRow numColumns i s j with
    | some s' => s'.assign i j (castDataType (wrapIdx (wrapIdx (i * numColumns) + j)))
    | none => none

/-- The view after `n` iterations of the outer loop
`for (i = 0; i < span.extent(0); ++i)`, each running the whole inner loop. -/
def initRows (numColumns : Nat) (s : View) : Nat → Option View
  | 0 => some s
  | i + 1 =>
    match initRows numColumns s i with
    | some s' => initRow numColumns i s' numColumns
    | none => none

/-- The function `initializeMatrix(span)`. -/
def initializeMatrix (span : View) : Option View :=
  initRows span.extent1 span span.extent0

/-- The coordinates of row `i`, columns `0 .. n - 1`, in loop order. -/
def rowCoords (i n : Nat) : List (Nat × Nat) := (List.range n).map fun j => (i, j)

/-- The coordinates of rows `0 .. n - 1` of a view with `c` columns, in loop order. -/
def allCoords (c n : Nat) : List (Nat × Nat) := (List.range n).flatMap fun i => rowCoords i c

/-- The inputs `main` generates: `N = 128` and every entry of `A` and `B`
drawn from `uniform_int_distribution(1, 42)`. -/
def MainInput (m : Mem) : Prop :=
  m.WF mainN ∧ (∀ a ∈ m.A, 1 ≤ a ∧ a ≤ 42) ∧ (∀ b ∈ m.B, 1 ≤ b ∧ b ≤ 42)

instance (m : Mem) : Decidable (MainInput m) := by
  unfold MainInput; infer_instance

/-! ## Sanity checks of the embedding -/

example : runThreads id 2 (gridThreads 2 2) ⟨[1, 2, 3, 4], [5, 6, 7, 8], [0, 0, 0, 0]⟩
    = some ⟨[1, 2, 3, 4], [5, 6, 7, 8], [19, 22, 43, 50]⟩ := by decide

example : mainWorkDiv.gridBlocks = (16, 16) := by decide

example : gridThreads 2 2 = [(0, 0), (1, 0), (0, 1), (1, 1)] := by decide

example : initializeMatrix ⟨2, 3, [9, 9, 9, 9, 9, 9], []⟩
    = some ⟨2, 3, [0, 1, 2, 3, 4, 5], [(0, 0), (0, 1), (0, 2), (1, 0), (1, 1), (1, 2)]⟩ := by
  decide

/-! ## Index arithmetic -/

theorem idx_lt {N x y : Nat} (hx : x < N) (hy : y < N) : y * N + x < N * N := by
  have h : (y + 1) * N ≤ N * N := Nat.mul_le_mul_right N hy
  have h2 : (y + 1) * N = y * N + N := by ring
  omega

theorem idx_inj {N x y x2 y2 : Nat} (hx : x < N) (hx2 : x2 < N)
    (h : y * N + x = y2 * N + x2) : x = x2 ∧ y = y2 := by
  have hN : 0 < N := by omega
  have e1 : (y * N + x) % N = x := by
    rw [Nat.add_comm, Nat.add_mul_mod_self_right, Nat.mod_eq_of_lt hx]
  have e2 : (y2 * N + x2) % N = x2 := by
    rw [Nat.add_comm, Nat.add_mul_mod_self_right, Nat.mod_eq_of_lt hx2]
  have hxx : x = x2 := by rw [← e1, ← e2, h]
  subst hxx
  have : y * N = y2 * N := by omega
  exact ⟨rfl, Nat.eq_of_mul_eq_mul_right hN this⟩

/-! ## Grids -/

theorem mem_gridThreads (gx gy x y : Nat) : (x, y) ∈ gridThreads gx gy ↔ x < gx ∧ y < gy := by
  simp only [gridThreads, List.mem_flatMap, List.mem_map, List.mem_range, Prod.mk.injEq]
  constructor
  · rintro ⟨b, hb, a, ha, e1, e2⟩
    omega
  · rintro ⟨hx, hy⟩
    exact ⟨y, hy, x, hx, rfl, rfl⟩

theorem split_index {G B x : Nat} : x < G * B ↔ ∃ b, b < G ∧ ∃ t, t < B ∧ b * B + t = x := by
  constructor
  · intro h
    have hB : 0 < B := by
      rcases Nat.eq_zero_or_pos B with h0 | h0
      · subst h0; simp at h
      · exact h0
    refine ⟨x / B, ?_, x % B, Nat.mod_lt x hB, ?_⟩
    · exact Nat.div_lt_of_lt_mul (by rw [Nat.mul_comm]; exact h)
    · rw [Nat.mul_comm]; exact Nat.div_add_mod x B
  · rintro ⟨b, hb, t, ht, rfl⟩
    have h1 : (b + 1) * B ≤ G * B := Nat.mul_le_mul_right B hb
    have h2 : (b + 1) * B = b * B + B := by ring
    omega

/-- The thread positions of a work division are the positions below
grid-in-blocks × block size in each dimension. -/
theorem mem_threadPositions (wd : WorkDivision) (x y : Nat) :
    (x, y) ∈ threadPositions wd ↔
      x < wd.gridBlocks.1 * wd.blockThreads.1 ∧ y < wd.gridBlocks.2 * wd.blockThreads.2 := by
  simp only [threadPositions, List.mem_flatMap, List.mem_map, List.mem_range, Prod.mk.injEq]
  rw [split_index, split_index]
  constructor
  · rintro ⟨b2, h2, b1, h1, t2, ht2, t1, ht1, e1, e2⟩
    exact ⟨⟨b1, h1, t1, ht1, e1⟩, ⟨b2, h2, t2, ht2, e2⟩⟩
  · rintro ⟨⟨b1, h1, t1, ht1, e1⟩, ⟨b2, h2, t2, ht2, e2⟩⟩
    exact ⟨b2, h2, b1, h1, t2, ht2, t1, ht1, e1, e2⟩

/-! ## The accumulator -/

theorem sumAfter_isSome (red : Int → Int) {A B : List Int} {N x y : Nat}
    (hA : A.length = N * N) (hB : B.length = N * N) (hx : x < N) (hy : y < N) :
    ∀ j, j ≤ N → ∃ s, sumAfter red A B N x y j = some s := by
  intro j
  induction j with
  | zero => intro _; exact ⟨0, rfl⟩
  | succ k ih =>
    intro hk
    obtain ⟨s, hs⟩ := ih (by omega)
    have ha : y * N + k < A.length := by rw [hA]; exact idx_lt (by omega) hy
    have hb : k * N + x < B.length := by rw [hB]; exact idx_lt hx (by omega)
    simp [sumAfter, hs, List.getElem?_eq_getElem ha, List.getElem?_eq_getElem hb]

theorem sumAfter_exact {A B : List Int} {N x y : Nat}
    (hA : A.length = N * N) (hB : B.length = N * N) (hx : x < N) (hy : y < N) :
    ∀ j, j ≤ N → sumAfter id A B N x y j
      = some (∑ k ∈ Finset.range j, A.getD (y * N + k) 0 * B.getD (k * N + x) 0) := by
  intro j
  induction j with
  | zero => intro _; simp [sumAfter]
  | succ k ih =>
    intro hk
    have ha : y * N + k < A.length := by rw [hA]; exact idx_lt (by omega) hy
    have hb : k * N + x < B.length := by rw [hB]; exact idx_lt hx (by omega)
    simp [sumAfter, ih (by omega), List.getElem?_eq_getElem ha, List.getElem?_eq_getElem hb,
      Finset.sum_range_succ, List.getD_eq_getElem?_getD]

/-! ## One kernel invocation -/

theorem MyMxM_out_of_range (red : Int → Int) (N : Nat) (m : Mem) (p : Nat × Nat)
    (h : ¬ (p.1 < N ∧ p.2 < N)) : MyMxM red N m p = some m := by
  simp only [MyMxM, if_neg h]

theorem MyMxM_in_range (red : Int → Int) {N : Nat} {m : Mem} {x y : Nat}
    (hm : m.WF N) (hx : x < N) (hy : y < N) :
    ∃ s, sumAfter red m.A m.B N x y N = some s ∧
      MyMxM red N m (x, y) = some { m with C := m.C.set (y * N + x) s } := by
  obtain ⟨hA, hB, hC⟩ := hm
  obtain ⟨s, hs⟩ := sumAfter_isSome red hA hB hx hy N (Nat.le_refl N)
  have hi : y * N + x < m.C.length := by rw [hC]; exact idx_lt hx hy
  exact ⟨s, hs, by simp [MyMxM, hx, hy, hs, hi]⟩

/-- What a successful invocation leaves behind, whatever the buffer lengths. -/
theorem MyMxM_frame {red : Int → Int} {N : Nat} {m m1 : Mem} {p : Nat × Nat}
    (h : MyMxM red N m p = some m1) :
    m1.A = m.A ∧ m1.B = m.B ∧ m1.C.length = m.C.length ∧
      ∀ i, i ≠ p.2 * N + p.1 → m1.C[i]? = m.C[i]? := by
  unfold MyMxM at h
  simp only at h
  split at h
  · split at h
    · split at h
      · cases h
        refine ⟨rfl, rfl, by simp, ?_⟩
        intro i hi
        simp [List.getElem?_set, Ne.symm hi]
      · cases h
    · cases h
  · cases h
    exact ⟨rfl, rfl, rfl, fun _ _ => rfl⟩

/-! ## A list of invocations -/

theorem runThreads_spec (red : Int → Int) (N : Nat) (ps : List (Nat × Nat)) :
    ∀ m : Mem, m.WF N → ∃ m1, runThreads red N ps m = some m1 ∧
      m1.A = m.A ∧ m1.B = m.B ∧ m1.C.length = m.C.length ∧
      ∀ x y, x < N → y < N → m1.C[y * N + x]? =
        if (x, y) ∈ ps then sumAfter red m.A m.B N x y N else m.C[y * N + x]? := by
  induction ps with
  | nil => intro m _; exact ⟨m, rfl, rfl, rfl, rfl, by simp⟩
  | cons p ps ih =>
    intro m hm
    obtain ⟨px, py⟩ := p
    by_cases hp : px < N ∧ py < N
    · obtain ⟨s, hs, hk⟩ := MyMxM_in_range red hm hp.1 hp.2
      have hm2 : Mem.WF N { m with C := m.C.set (py * N + px) s } := by
        obtain ⟨hA, hB, hC⟩ := hm
        exact ⟨hA, hB, by simpa using hC⟩
      obtain ⟨m1, hr, eA, eB, eL, eC⟩ := ih _ hm2
      refine ⟨m1, by simp [runThreads, hk, hr], eA, eB, by simpa using eL, ?_⟩
      intro x y hx hy
      rw [eC x y hx hy]
      by_cases hmem : (x, y) ∈ ps
      · simp [hmem]
      · by_cases he : (x, y) = (px, py)
        · cases he
          have hi : py * N + px < m.C.length := by rw [hm.2.2]; exact idx_lt hx hy
          simp [hmem, hs, List.getElem?_set, hi]
        · have hne : py * N + px ≠ y * N + x := by
            intro hc
            obtain ⟨h1, h2⟩ := idx_inj hp.1 hx hc
            exact he (by rw [h1, h2])
          simp [hmem, he, List.getElem?_set, hne]
    · have hk := MyMxM_out_of_range red N m (px, py) hp
      obtain ⟨m1, hr, eA, eB, eL, eC⟩ := ih m hm
      refine ⟨m1, by simp [runThreads, hk, hr], eA, eB, eL, ?_⟩
      intro x y hx hy
      rw [eC x y hx hy]
      have he : (x, y) ≠ (px, py) := by
        intro hc
        cases hc
        exact hp ⟨hx, hy⟩
      simp [he]

/-! ## C1, C3: the kernel computes the matrix product -/

/-- C1: for every `N` (so for every `N ≥ 1`) and all `N × N` buffers, running the kernel once at
each thread position of a grid `ps` that contains every `(x, y)` with `x < N`
and `y < N` (the grid may hold further positions) returns a memory in which
`A` and `B` are as before and `C[y * N + x]` is the entry
`∑ k < N, A[y * N + k] * B[k * N + x]` of the matrix product, for all
`x, y < N`. -/
theorem kernel_computes_matrix_product (N : Nat) (m : Mem) (hm : m.WF N)
    (ps : List (Nat × Nat)) (hcov : ∀ x y, x < N → y < N → (x, y) ∈ ps) :
    ∃ m1, runThreads id N ps m = some m1 ∧ m1.A = m.A ∧ m1.B = m.B ∧
      m1.C.length = N * N ∧
      ∀ x y, x < N → y < N → m1.C[y * N + x]? = some (prodEntry m.A m.B N x y) := by
  obtain ⟨m1, hr, eA, eB, eL, eC⟩ := runThreads_spec id N ps m hm
  refine ⟨m1, hr, eA, eB, by rw [eL, hm.2.2], ?_⟩
  intro x y hx hy
  rw [eC x y hx hy, if_pos (hcov x y hx hy),
    sumAfter_exact hm.1 hm.2.1 hx hy N (Nat.le_refl N)]
  rfl

/-- Witness of C1 at `N = 1` on an over-provisioned `2 × 2` grid: `C[0] = A[0] * B[0]`. -/
theorem kernel_computes_matrix_product_witness :
    Mem.WF 1 ⟨[3], [5], [0]⟩ ∧ (0, 0) ∈ gridThreads 2 2 ∧
    ∃ m1, runThreads id 1 (gridThreads 2 2) ⟨[3], [5], [0]⟩ = some m1 ∧
      m1.A = [3] ∧ m1.B = [5] ∧ m1.C.length = 1 * 1 ∧
      ∀ x y, x < 1 → y < 1 → m1.C[y * 1 + x]? = some (prodEntry [3] [5] 1 x y) :=
  ⟨by decide, by decide,
    kernel_computes_matrix_product 1 ⟨[3], [5], [0]⟩ (by decide) (gridThreads 2 2)
      (fun x y hx hy => (mem_gridThreads 2 2 x y).2 ⟨by omega, by omega⟩)⟩

/-- C3: with `N = 2`, `A = [1, 2, 3, 4]` and `B = [5, 6, 7, 8]`, the kernel run
at the four thread positions `(x, y)`, `x, y ∈ {0, 1}`, turns any initial `C`
of four elements into `[19, 22, 43, 50]`, which is `A * B` and differs from
`B * A = [23, 34, 31, 46]`. -/
theorem two_by_two_example (c0 c1 c2 c3 : Int) :
    runThreads id 2 [(0, 0), (1, 0), (0, 1), (1, 1)] ⟨[1, 2, 3, 4], [5, 6, 7, 8], [c0, c1, c2, c3]⟩
        = some ⟨[1, 2, 3, 4], [5, 6, 7, 8], [19, 22, 43, 50]⟩ ∧
      gridThreads 2 2 = [(0, 0), (1, 0), (0, 1), (1, 1)] ∧
      ([19, 22, 43, 50] : List Int) ≠ [23, 34, 31, 46] := by
  refine ⟨?_, by decide, by decide⟩
  simp [runThreads, MyMxM, sumAfter]

/-! ## C4: every access is in bounds -/

theorem loopAccesses_lt {N x y : Nat} (hx : x < N) (hy : y < N) :
    ∀ j, j ≤ N → ∀ a ∈ loopAccesses N x y j, a.2 < N * N := by
  intro j
  induction j with
  | zero => intro _ a ha; simp [loopAccesses] at ha
  | succ k ih =>
    intro hk a ha
    simp only [loopAccesses, List.mem_append, List.mem_cons, List.mem_singleton,
      List.not_mem_nil, or_false] at ha
    rcases ha with h | h | h
    · exact ih (by omega) a h
    · subst h; exact idx_lt (by omega) hy
    · subst h; exact idx_lt hx (by omega)

/-- The reads of the loop are exactly the lookups that decide whether the
accumulator is defined. -/
theorem sumAfter_isSome_iff (red : Int → Int) (m : Mem) (N x y : Nat) :
    ∀ j, (sumAfter red m.A m.B N x y j).isSome = true ↔
      ∀ a ∈ loopAccesses N x y j, a.2 < m.size a.1 := by
  intro j
  induction j with
  | zero => simp [sumAfter, loopAccesses]
  | succ k ih =>
    have key : (sumAfter red m.A m.B N x y (k + 1)).isSome = true ↔
        (sumAfter red m.A m.B N x y k).isSome = true ∧
          y * N + k < m.A.length ∧ k * N + x < m.B.length := by
      simp only [sumAfter]
      cases h1 : sumAfter red m.A m.B N x y k with
      | none => simp
      | some s =>
        by_cases ha : y * N + k < m.A.length
        · by_cases hb : k * N + x < m.B.length
          · simp [List.getElem?_eq_getElem ha, List.getElem?_eq_getElem hb, ha, hb]
          · simp [List.getElem?_eq_getElem ha, List.getElem?_eq_none (Nat.le_of_not_lt hb), ha, hb]
        · simp [List.getElem?_eq_none (Nat.le_of_not_lt ha), ha]
    rw [key, ih]
    simp only [loopAccesses, List.mem_append, List.mem_cons, List.mem_singleton,
      List.not_mem_nil, or_false]
    constructor
    · rintro ⟨h1, h2, h3⟩ a (h | h | h)
      · exact h1 a h
      · subst h; exact h2
      · subst h; exact h3
    · intro h
      exact ⟨fun a ha => h a (Or.inl ha), h (Buf.A, y * N + k) (Or.inr (Or.inl rfl)),
        h (Buf.B, k * N + x) (Or.inr (Or.inr rfl))⟩

/-- An invocation is defined exactly when every index of `accesses` lies
inside the buffer it addresses. -/
theorem MyMxM_isSome_iff (red : Int → Int) (N : Nat) (m : Mem) (p : Nat × Nat) :
    (MyMxM red N m p).isSome = true ↔ ∀ a ∈ accesses N p, a.2 < m.size a.1 := by
  by_cases hp : p.1 < N ∧ p.2 < N
  · have hs := sumAfter_isSome_iff red m N p.1 p.2 N
    simp only [accesses, if_pos hp, List.mem_append, List.mem_singleton]
    constructor
    · intro h a ha
      unfold MyMxM at h
      simp only [if_pos hp] at h
      cases h1 : sumAfter red m.A m.B N p.1 p.2 N with
      | none => simp [h1] at h
      | some s =>
        rcases ha with ha | ha
        · exact hs.1 (by simp [h1]) a ha
        · subst ha
          by_cases hc : p.2 * N + p.1 < m.C.length
          · exact hc
          · simp [h1, hc] at h
    · intro h
      have h1 := hs.2 (fun a ha => h a (Or.inl ha))
      have h2 : p.2 * N + p.1 < m.C.length := h (Buf.C, p.2 * N + p.1) (Or.inr rfl)
      obtain ⟨s, hs1⟩ := Option.isSome_iff_exists.1 h1
      simp [MyMxM, hp, hs1, h2]
  · simp [MyMxM_out_of_range red N m p hp, accesses, hp]

/-- C4: for every `N` and every thread position `(x, y)`, also one with
`x ≥ N` or `y ≥ N`, every index at which one invocation reads `A`, reads `B`
or writes `C` is below `N * N`; these indices are exactly the lookups of the
`Option` model, so with `A`, `B`, `C` of length `N * N` the invocation never
reaches the out-of-range branch. -/
theorem kernel_accesses_in_bounds (N x y : Nat) :
    (∀ a ∈ accesses N (x, y), a.2 < N * N) ∧
    (∀ (red : Int → Int) (m : Mem),
      (MyMxM red N m (x, y)).isSome = true ↔ ∀ a ∈ accesses N (x, y), a.2 < m.size a.1) ∧
    (∀ (red : Int → Int) (m : Mem), m.WF N → ∃ m1, MyMxM red N m (x, y) = some m1) := by
  have h1 : ∀ a ∈ accesses N (x, y), a.2 < N * N := by
    intro a ha
    by_cases hp : x < N ∧ y < N
    · simp only [accesses, if_pos hp, List.mem_append, List.mem_singleton] at ha
      rcases ha with ha | ha
      · exact loopAccesses_lt hp.1 hp.2 N (Nat.le_refl N) a ha
      · subst ha; exact idx_lt hp.1 hp.2
    · simp [accesses, hp] at ha
  refine ⟨h1, fun red m => MyMxM_isSome_iff red N m (x, y), ?_⟩
  intro red m hm
  apply Option.isSome_iff_exists.1
  rw [MyMxM_isSome_iff]
  intro a ha
  have := h1 a ha
  obtain ⟨hA, hB, hC⟩ := hm
  cases a with
  | mk b i => cases b <;> simp_all [Mem.size]

/-- Witness of C4 at `N = 2`, thread `(1, 0)`: the five accesses and the
defined result. -/
theorem kernel_accesses_in_bounds_witness :
    accesses 2 (1, 0) = [(Buf.A, 0), (Buf.B, 1), (Buf.A, 1), (Buf.B, 3), (Buf.C, 1)] ∧
    Mem.WF 2 ⟨[1, 2, 3, 4], [5, 6, 7, 8], [0, 0, 0, 0]⟩ ∧
    ∃ m1, MyMxM id 2 ⟨[1, 2, 3, 4], [5, 6, 7, 8], [0, 0, 0, 0]⟩ (1, 0) = some m1 :=
  ⟨by decide, by decide,
    (kernel_accesses_in_bounds 2 1 0).2.2 id ⟨[1, 2, 3, 4], [5, 6, 7, 8], [0, 0, 0, 0]⟩
      (by decide)⟩

/-! ## C6: frame of one invocation -/

/-- C6: an invocation at a thread position with `x ≥ N` or `y ≥ N` returns the
memory unchanged, whatever `N`, `A`, `B` and `C` are; an invocation at a
position with `x < N` and `y < N` (on buffers of `N * N` elements, where it is
defined) changes no entry of `C` other than `C[y * N + x]`; `A` and `B` are
never modified. -/
theorem kernel_frame (red : Int → Int) (N : Nat) (m : Mem) (x y : Nat)
    (hm : x < N → y < N → m.WF N) :
    ∃ m1, MyMxM red N m (x, y) = some m1 ∧
      m1.A = m.A ∧ m1.B = m.B ∧ m1.C.length = m.C.length ∧
      (∀ i, i ≠ y * N + x → m1.C[i]? = m.C[i]?) ∧
      (N ≤ x ∨ N ≤ y → m1 = m) := by
  by_cases hp : x < N ∧ y < N
  · obtain ⟨s, _, hk⟩ := MyMxM_in_range red (hm hp.1 hp.2) hp.1 hp.2
    obtain ⟨eA, eB, eL, eC⟩ := MyMxM_frame hk
    exact ⟨_, hk, eA, eB, eL, eC, fun h => by omega⟩
  · have hk := MyMxM_out_of_range red N m (x, y) hp
    exact ⟨m, hk, rfl, rfl, rfl, fun _ _ => rfl, fun _ => rfl⟩

/-- Witness of C6 at `N = 2`, in-range thread `(1, 0)`. -/
theorem kernel_frame_witness :
    ((1 : Nat) < 2 → (0 : Nat) < 2 → Mem.WF 2 ⟨[1, 2, 3, 4], [5, 6, 7, 8], [9, 9, 9, 9]⟩) ∧
    ∃ m1, MyMxM id 2 ⟨[1, 2, 3, 4], [5, 6, 7, 8], [9, 9, 9, 9]⟩ (1, 0) = some m1 ∧
      m1.A = [1, 2, 3, 4] ∧ m1.B = [5, 6, 7, 8] ∧ m1.C.length = 4 ∧
      (∀ i, i ≠ 0 * 2 + 1 → m1.C[i]? = ([9, 9, 9, 9] : List Int)[i]?) ∧
      (2 ≤ 1 ∨ 2 ≤ 0 → m1 = ⟨[1, 2, 3, 4], [5, 6, 7, 8], [9, 9, 9, 9]⟩) :=
  ⟨fun _ _ => by decide,
    kernel_frame id 2 ⟨[1, 2, 3, 4], [5, 6, 7, 8], [9, 9, 9, 9]⟩ 1 0 (fun _ _ => by decide)⟩

/-! ## C8: invocations commute -/

theorem runThreads_cons (red : Int → Int) (N : Nat) (p : Nat × Nat) (ps : List (Nat × Nat))
    (m : Mem) :
    runThreads red N (p :: ps) m = (MyMxM red N m p).bind (runThreads red N ps) := by
  cases h : MyMxM red N m p <;> simp [runThreads, h]

theorem MyMxM_comm (red : Int → Int) (N : Nat) (m : Mem) (p q : Nat × Nat) :
    (MyMxM red N m p).bind (fun m1 => MyMxM red N m1 q) =
      (MyMxM red N m q).bind (fun m1 => MyMxM red N m1 p) := by
  by_cases hp : p.1 < N ∧ p.2 < N
  · by_cases hq : q.1 < N ∧ q.2 < N
    · simp only [MyMxM, if_pos hp, if_pos hq]
      cases hsp : sumAfter red m.A m.B N p.1 p.2 N with
      | none =>
        cases hsq : sumAfter red m.A m.B N q.1 q.2 N with
        | none => simp
        | some sq =>
          by_cases hiq : q.2 * N + q.1 < m.C.length
          · simp [hiq, hsp]
          · simp [hiq]
      | some sp =>
        cases hsq : sumAfter red m.A m.B N q.1 q.2 N with
        | none =>
          by_cases hip : p.2 * N + p.1 < m.C.length
          · simp [hip, hsq]
          · simp [hip]
        | some sq =>
          by_cases hip : p.2 * N + p.1 < m.C.length
          · by_cases hiq : q.2 * N + q.1 < m.C.length
            · simp only [if_pos hip, if_pos hiq, Option.some_bind, hsp, hsq, List.length_set]
              by_cases he : p.2 * N + p.1 = q.2 * N + q.1
              · obtain ⟨h1, h2⟩ := idx_inj hp.1 hq.1 he
                have hs : sp = sq := by
                  rw [h1, h2, hsq] at hsp
                  exact (Option.some.inj hsp).symm
                rw [he, hs]
              · rw [List.set_comm sp sq m.C he]
            · simp [hip, hiq, hsq]
          · by_cases hiq : q.2 * N + q.1 < m.C.length
            · simp [hip, hiq, hsp]
            · simp [hip, hiq]
    · rw [MyMxM_out_of_range red N m q hq]
      cases h : MyMxM red N m p with
      | none => simp [h]
      | some m1 => simp [MyMxM_out_of_range red N m1 q hq, h]
  · rw [MyMxM_out_of_range red N m p hp]
    cases h : MyMxM red N m q with
    | none => simp [h]
    | some m1 => simp [MyMxM_out_of_range red N m1 p hp, h]

theorem runThreads_perm (red : Int → Int) (N : Nat) {ps qs : List (Nat × Nat)}
    (h : ps.Perm qs) : ∀ m, runThreads red N ps m = runThreads red N qs m := by
  induction h with
  | nil => intro m; rfl
  | cons p _ ih =>
    intro m
    rw [runThreads_cons, runThreads_cons]
    cases MyMxM red N m p with
    | none => rfl
    | some m1 => exact ih m1
  | swap p q l =>
    intro m
    simp only [runThreads_cons, Option.bind_assoc]
    have := MyMxM_comm red N m q p
    simp only [← Option.bind_assoc]
    rw [this]
  | trans _ _ ih1 ih2 => intro m; rw [ih1 m, ih2 m]

/-- C8: for every `N`, `A`, `B`, initial `C` and thread positions `p`, `q`,
running the kernel at `p` then `q` gives the same memory as running it at `q`
then `p`; hence for every list of thread positions the result is the same
under every permutation of the list. -/
theorem kernel_invocations_commute (red : Int → Int) (N : Nat) (m : Mem) :
    (∀ p q, runThreads red N [p, q] m = runThreads red N [q, p] m) ∧
    (∀ ps qs, ps.Perm qs → runThreads red N ps m = runThreads red N qs m) :=
  ⟨fun p q => runThreads_perm red N (List.Perm.swap q p []) m,
    fun _ _ h => runThreads_perm red N h m⟩

/-- Witness of C8: the `2 × 2` grid in reverse order gives the same product. -/
theorem kernel_invocations_commute_witness :
    List.Perm [(0, 0), (1, 0), (0, 1), (1, 1)] [(1, 1), (0, 1), (1, 0), (0, 0)] ∧
    runThreads id 2 [(0, 0), (1, 0), (0, 1), (1, 1)] ⟨[1, 2, 3, 4], [5, 6, 7, 8], [0, 0, 0, 0]⟩
      = runThreads id 2 [(1, 1), (0, 1), (1, 0), (0, 0)]
          ⟨[1, 2, 3, 4], [5, 6, 7, 8], [0, 0, 0, 0]⟩ :=
  ⟨by decide,
    (kernel_invocations_commute id 2 ⟨[1, 2, 3, 4], [5, 6, 7, 8], [0, 0, 0, 0]⟩).2 _ _
      (by decide)⟩

/-! ## C5: coverage of the work division -/

theorem le_ceilDiv_mul (g d : Nat) (hd : 0 < d) : g ≤ ceilDiv g d * d := by
  unfold ceilDiv
  have h1 := Nat.div_add_mod (g + d - 1) d
  have h2 := Nat.mod_lt (g + d - 1) hd
  have h3 : d * ((g + d - 1) / d) = (g + d - 1) / d * d := Nat.mul_comm _ _
  omega

/-- C5: for every global extent, every block size `b ≥ 1` and every
elements-per-thread count `e ≥ 1`, the work division with
grid-in-blocks = ceil(g / (b * e)) satisfies grid-in-blocks × b × e ≥ g in
both dimensions. -/
theorem work_division_covers (blockSize globalExtent : Nat × Nat) (e : Nat)
    (hb1 : 1 ≤ blockSize.1) (hb2 : 1 ≤ blockSize.2) (he : 1 ≤ e) :
    globalExtent.1 ≤
        (computeWorkDivision blockSize globalExtent e).gridBlocks.1 *
          (computeWorkDivision blockSize globalExtent e).blockThreads.1 *
          (computeWorkDivision blockSize globalExtent e).threadElems.1 ∧
      globalExtent.2 ≤
        (computeWorkDivision blockSize globalExtent e).gridBlocks.2 *
          (computeWorkDivision blockSize globalExtent e).blockThreads.2 *
          (computeWorkDivision blockSize globalExtent e).threadElems.2 := by
  simp only [computeWorkDivision, Nat.mul_assoc]
  exact ⟨le_ceilDiv_mul _ _ (Nat.mul_pos hb1 he), le_ceilDiv_mul _ _ (Nat.mul_pos hb2 he)⟩

/-- Witness of C5 at the extent `(130, 7)`, block size `(4, 1)` and three
elements per thread: the grid is `11 × 3` blocks. -/
theorem work_division_covers_witness :
    (computeWorkDivision (4, 1) (130, 7) 3).gridBlocks = (11, 3) ∧
    (130 ≤ (computeWorkDivision (4, 1) (130, 7) 3).gridBlocks.1 *
          (computeWorkDivision (4, 1) (130, 7) 3).blockThreads.1 *
          (computeWorkDivision (4, 1) (130, 7) 3).threadElems.1 ∧
      7 ≤ (computeWorkDivision (4, 1) (130, 7) 3).gridBlocks.2 *
          (computeWorkDivision (4, 1) (130, 7) 3).blockThreads.2 *
          (computeWorkDivision (4, 1) (130, 7) 3).threadElems.2) :=
  ⟨by decide, work_division_covers (4, 1) (130, 7) 3 (by decide) (by decide) (by decide)⟩

/-! ## The dispatch of `main` -/

theorem mem_threadPositions_main (x y : Nat) :
    (x, y) ∈ threadPositions mainWorkDiv ↔ x < 16 ∧ y < 16 := by
  rw [mem_threadPositions]
  have h : mainWorkDiv = ⟨(16, 16), (1, 1), (8, 8)⟩ := by decide
  rw [h]
  exact Iff.rfl

/-- The dispatch of `main` on `128 × 128` buffers: the entries with
`x, y < 16` receive the accumulator, every other entry keeps its content. -/
theorem mainHostC_spec (red : Int → Int) (hostA hostB accC : List Int)
    (hA : hostA.length = mainN * mainN) (hB : hostB.length = mainN * mainN)
    (hC : accC.length = mainN * mainN) :
    ∃ hostC, mainHostC red hostA hostB accC = some hostC ∧
      hostC.length = mainN * mainN ∧
      ∀ x y, x < mainN → y < mainN → hostC[y * mainN + x]? =
        if x < 16 ∧ y < 16 then sumAfter red hostA hostB mainN x y mainN
        else accC[y * mainN + x]? := by
  have hm : Mem.WF mainN ⟨hostA, hostB, accC⟩ := ⟨hA, hB, hC⟩
  obtain ⟨m1, hr, _, _, eL, eC⟩ :=
    runThreads_spec red mainN (threadPositions mainWorkDiv) ⟨hostA, hostB, accC⟩ hm
  have hrun : mainHostC red hostA hostB accC = some m1.C := by
    unfold mainHostC mainExec
    rw [hr]
  refine ⟨m1.C, hrun, eL.trans hC, ?_⟩
  intro x y hx hy
  rw [eC x y hx hy]
  simp only [mem_threadPositions_main]

theorem constBuf_length (v : Int) : (constBuf v).length = mainN * mainN := by
  simp [constBuf]

theorem prodEntry_ones (x y : Nat) (hx : x < mainN) (hy : y < mainN) :
    prodEntry (constBuf 1) (constBuf 1) mainN x y = 128 := by
  unfold prodEntry
  have e : ∀ k ∈ Finset.range mainN,
      (constBuf 1).getD (y * mainN + k) 0 * (constBuf 1).getD (k * mainN + x) 0 = 1 := by
    intro k hk
    have hk2 : k < mainN := Finset.mem_range.1 hk
    have h1 : y * mainN + k < mainN * mainN := idx_lt hk2 hy
    have h2 : k * mainN + x < mainN * mainN := idx_lt hx hk2
    simp [constBuf, List.getD_eq_getElem?_getD, List.getElem?_replicate, h1, h2]
  rw [Finset.sum_congr rfl e]
  simp [mainN]

/-! ## C2, C10: what `main` computes -/

/-- C2 (the code falls short of it): on `A = B =` all ones and a zeroed device
buffer `C`, the dispatch of `main` returns a host buffer whose entry
`C[0 * 128 + 16]` is still `0`, while the matrix product has `128` there; the
kernel handles one element per thread and the grid has only `16 × 16` threads. -/
theorem main_leaves_entry_unwritten :
    mainWorkDiv.gridBlocks = (16, 16) ∧ mainWorkDiv.blockThreads = (1, 1) ∧
    ∃ hostC, mainHostC id (constBuf 1) (constBuf 1) (constBuf 0) = some hostC ∧
      hostC[0 * mainN + 16]? = some 0 ∧
      prodEntry (constBuf 1) (constBuf 1) mainN 16 0 = 128 := by
  obtain ⟨hostC, hr, _, eC⟩ := mainHostC_spec id (constBuf 1) (constBuf 1) (constBuf 0)
    (constBuf_length 1) (constBuf_length 1) (constBuf_length 0)
  refine ⟨by decide, by decide, hostC, hr, ?_, prodEntry_ones 16 0 (by decide) (by decide)⟩
  rw [eC 16 0 (by decide) (by decide), if_neg (by omega)]
  unfold constBuf
  exact List.getElem?_replicate_of_lt (by unfold mainN; omega)

/-- C10: in the dispatch configuration of `main`, each of the 25 entries
`bufHostC(i, j)`, `i, j < 5`, that `main` prints is in bounds
(`i * 128 + j < 128 * 128`) and equals the matrix-product entry
`∑ k < 128, A[i * 128 + k] * B[k * 128 + j]`. -/
theorem main_printed_entries (hostA hostB accC : List Int)
    (hA : hostA.length = mainN * mainN) (hB : hostB.length = mainN * mainN)
    (hC : accC.length = mainN * mainN) :
    ∃ hostC, mainHostC id hostA hostB accC = some hostC ∧
      ∀ i j, i < 5 → j < 5 →
        i * 128 + j < 128 * 128 ∧ i * 128 + j < hostC.length ∧
        hostC[i * 128 + j]? = some (prodEntry hostA hostB 128 j i) := by
  obtain ⟨hostC, hr, hL, eC⟩ := mainHostC_spec id hostA hostB accC hA hB hC
  refine ⟨hostC, hr, ?_⟩
  intro i j hi hj
  have hi2 : i < mainN := by unfold mainN; omega
  have hj2 : j < mainN := by unfold mainN; omega
  have h := eC j i hj2 hi2
  rw [if_pos ⟨by omega, by omega⟩, sumAfter_exact hA hB hj2 hi2 mainN (Nat.le_refl _)] at h
  refine ⟨by omega, by rw [hL]; unfold mainN; omega, ?_⟩
  exact h

/-- Witness of C10 on `A = B =` all ones. -/
theorem main_printed_entries_witness :
    (constBuf 1).length = mainN * mainN ∧ (constBuf 0).length = mainN * mainN ∧
    ∃ hostC, mainHostC id (constBuf 1) (constBuf 1) (constBuf 0) = some hostC ∧
      ∀ i j, i < 5 → j < 5 →
        i * 128 + j < 128 * 128 ∧ i * 128 + j < hostC.length ∧
        hostC[i * 128 + j]? = some (prodEntry (constBuf 1) (constBuf 1) 128 j i) :=
  ⟨constBuf_length 1, constBuf_length 0,
    main_printed_entries (constBuf 1) (constBuf 1) (constBuf 0)
      (constBuf_length 1) (constBuf_length 1) (constBuf_length 0)⟩

/-! ## C9: range of the accumulator on the inputs of `main` -/

theorem u32_of_lt {v : Int} (h0 : 0 ≤ v) (h1 : v < 2 ^ 32) : u32 v = v :=
  Int.emod_eq_of_lt h0 h1

/-- On entries between 1 and 42 the accumulator after `j` iterations lies
between `j` and `1764 * j`, and the 32-bit accumulator agrees with it as long
as `1764 * N` stays below `2 ^ 32`. -/
theorem sumAfter_bounds {A B : List Int} {N x y : Nat}
    (hA : A.length = N * N) (hB : B.length = N * N)
    (rA : ∀ a ∈ A, 1 ≤ a ∧ a ≤ 42) (rB : ∀ b ∈ B, 1 ≤ b ∧ b ≤ 42)
    (hN : 1764 * N < 2 ^ 32) (hx : x < N) (hy : y < N) :
    ∀ j, j ≤ N → ∃ s : Int, sumAfter id A B N x y j = some s ∧
      sumAfter u32 A B N x y j = some s ∧ (j : Int) ≤ s ∧ s ≤ 1764 * (j : Int) := by
  intro j
  induction j with
  | zero => intro _; exact ⟨0, rfl, rfl, by simp, by simp⟩
  | succ k ih =>
    intro hk
    obtain ⟨s, h1, h2, lo, hi⟩ := ih (by omega)
    have ha : y * N + k < A.length := by rw [hA]; exact idx_lt (by omega) hy
    have hb : k * N + x < B.length := by rw [hB]; exact idx_lt hx (by omega)
    obtain ⟨a1, a2⟩ := rA _ (List.getElem_mem ha)
    obtain ⟨b1, b2⟩ := rB _ (List.getElem_mem hb)
    have p1 : 1 ≤ A[y * N + k] * B[k * N + x] := by nlinarith
    have p2 : A[y * N + k] * B[k * N + x] ≤ 1764 := by nlinarith
    have hkN : ((k : Int) + 1) ≤ (N : Int) := by exact_mod_cast hk
    have hN2 : (1764 : Int) * (N : Int) < 2 ^ 32 := by exact_mod_cast hN
    have e1 : u32 (A[y * N + k] * B[k * N + x]) = A[y * N + k] * B[k * N + x] :=
      u32_of_lt (by omega) (by norm_num; omega)
    have e2 : u32 (s + A[y * N + k] * B[k * N + x]) = s + A[y * N + k] * B[k * N + x] :=
      u32_of_lt (by omega) (by norm_num at hN2 ⊢; omega)
    refine ⟨s + A[y * N + k] * B[k * N + x], ?_, ?_, ?_, ?_⟩
    · simp [sumAfter, h1, List.getElem?_eq_getElem ha, List.getElem?_eq_getElem hb]
    · simp [sumAfter, h2, List.getElem?_eq_getElem ha, List.getElem?_eq_getElem hb, e1, e2]
    · push_cast; omega
    · push_cast; omega

theorem constBuf_mainInput : MainInput ⟨constBuf 1, constBuf 1, constBuf 0⟩ := by
  refine ⟨⟨constBuf_length 1, constBuf_length 1, constBuf_length 0⟩, ?_, ?_⟩
  · intro a ha
    have := List.eq_of_mem_replicate ha
    omega
  · intro b hb
    have := List.eq_of_mem_replicate hb
    omega

/-- C9 as stated fails: on the admissible input `A = B =` all ones, thread
`(0, 0)`, the accumulator holds `0` before the first iteration and `1` after
it, both below 128. -/
theorem accumulator_below_128 :
    MainInput ⟨constBuf 1, constBuf 1, constBuf 0⟩ ∧
    sumAfter id (constBuf 1) (constBuf 1) mainN 0 0 0 = some 0 ∧
    sumAfter id (constBuf 1) (constBuf 1) mainN 0 0 1 = some 1 ∧
    ¬ ((128 : Int) ≤ 0 ∧ (0 : Int) ≤ 225792) ∧ ¬ ((128 : Int) ≤ 1 ∧ (1 : Int) ≤ 225792) := by
  refine ⟨constBuf_mainInput, rfl, ?_, by decide, by decide⟩
  have h0 : (constBuf 1)[0]? = some 1 := by
    unfold constBuf
    exact List.getElem?_replicate_of_lt (by unfold mainN; omega)
  simp [sumAfter, h0]

/-- C9, amended: on the inputs of `main` (`N = 128`, entries of `A` and `B`
between 1 and 42) the accumulator after `j ≤ 128` iterations lies between `j`
and `1764 * j`, so between 0 and 225792; the entry the kernel stores is the
matrix-product entry and lies between 128 and 225792 = 128 * 42 * 42, below
`2 ^ 24` and `2 ^ 32`; the accumulator and the invocation computed modulo
`2 ^ 32` equal the exact ones. -/
theorem main_accumulator_range (m : Mem) (hm : MainInput m) (x y : Nat)
    (hx : x < mainN) (hy : y < mainN) :
    (∀ j, j ≤ mainN → ∃ s : Int, sumAfter id m.A m.B mainN x y j = some s ∧
      sumAfter u32 m.A m.B mainN x y j = some s ∧
      (j : Int) ≤ s ∧ s ≤ 1764 * (j : Int) ∧ 0 ≤ s ∧ s ≤ 225792) ∧
    (∃ s : Int, s = prodEntry m.A m.B mainN x y ∧ 128 ≤ s ∧ s ≤ 225792 ∧
      MyMxM id mainN m (x, y) = some { m with C := m.C.set (y * mainN + x) s } ∧
      MyMxM u32 mainN m (x, y) = MyMxM id mainN m (x, y)) ∧
    (225792 : Int) = 128 * 42 * 42 ∧ (225792 : Int) < 2 ^ 24 ∧ (2 : Int) ^ 24 < 2 ^ 32 := by
  obtain ⟨hwf, rA, rB⟩ := hm
  have hb := sumAfter_bounds hwf.1 hwf.2.1 rA rB (by unfold mainN; norm_num) hx hy
  refine ⟨?_, ?_, by norm_num, by norm_num, by norm_num⟩
  · intro j hj
    obtain ⟨s, h1, h2, lo, hi⟩ := hb j hj
    have hj2 : (j : Int) ≤ 128 := by
      have : j ≤ 128 := hj
      exact_mod_cast this
    exact ⟨s, h1, h2, lo, hi, by omega, by omega⟩
  · obtain ⟨s, h1, h2, lo, hi⟩ := hb mainN (Nat.le_refl _)
    have hi2 : y * mainN + x < m.C.length := by rw [hwf.2.2]; exact idx_lt hx hy
    have hex := sumAfter_exact hwf.1 hwf.2.1 hx hy mainN (Nat.le_refl _)
    have hs : s = prodEntry m.A m.B mainN x y := by
      rw [h1] at hex
      exact Option.some.inj hex
    have hl : (128 : Int) ≤ s := by
      have : ((mainN : Nat) : Int) = 128 := rfl
      omega
    have hu : s ≤ 225792 := by
      have : ((mainN : Nat) : Int) = 128 := rfl
      omega
    refine ⟨s, hs, hl, hu, ?_, ?_⟩
    · simp [MyMxM, hx, hy, h1, hi2]
    · simp [MyMxM, hx, hy, h1, h2, hi2]

/-- Witness of C9 (amended) on `A = B =` all ones, thread `(3, 5)`. -/
theorem main_accumulator_range_witness :
    MainInput ⟨constBuf 1, constBuf 1, constBuf 0⟩ ∧
    ∃ s : Int, s = prodEntry (constBuf 1) (constBuf 1) mainN 3 5 ∧ 128 ≤ s ∧ s ≤ 225792 ∧
      MyMxM id mainN ⟨constBuf 1, constBuf 1, constBuf 0⟩ (3, 5)
        = some ⟨constBuf 1, constBuf 1, (constBuf 0).set (5 * mainN + 3) s⟩ ∧
      MyMxM u32 mainN ⟨constBuf 1, constBuf 1, constBuf 0⟩ (3, 5)
        = MyMxM id mainN ⟨constBuf 1, constBuf 1, constBuf 0⟩ (3, 5) :=
  ⟨constBuf_mainInput,
    (main_accumulator_range ⟨constBuf 1, constBuf 1, constBuf 0⟩ constBuf_mainInput 3 5
      (by decide) (by decide)).2.1⟩

/-! ## C7: `initializeMatrix` -/

theorem stored_value {R c i j : Nat} (hR : R * c ≤ 2 ^ 32) (hi : i < R) (hj : j < c) :
    castDataType (wrapIdx (wrapIdx (i * c) + j)) = i * c + j := by
  have h : i * c + j < R * c := by
    have h1 : (i + 1) * c ≤ R * c := Nat.mul_le_mul_right c hi
    have h2 : (i + 1) * c = i * c + c := by ring
    omega
  have h3 : i * c + j < 2 ^ 32 := by omega
  have h4 : i * c < 2 ^ 64 := by norm_num at h3 ⊢; omega
  have e1 : wrapIdx (i * c) = i * c := Nat.mod_eq_of_lt h4
  have e2 : wrapIdx (i * c + j) = i * c + j := Nat.mod_eq_of_lt (by norm_num at h3 ⊢; omega)
  rw [e1, e2]
  exact Nat.mod_eq_of_lt h3

theorem initRow_spec {R c i : Nat} (hR : R * c ≤ 2 ^ 32) (hi : i < R) (s : View)
    (h0 : s.extent0 = R) (h1 : s.extent1 = c) (hl : s.data.length = R * c) :
    ∀ n, n ≤ c → ∃ s1, initRow c i s n = some s1 ∧
      s1.extent0 = R ∧ s1.extent1 = c ∧ s1.data.length = R * c ∧
      s1.written = s.written ++ rowCoords i n ∧
      ∀ p, s1.data[p]? = if i * c ≤ p ∧ p < i * c + n then some p else s.data[p]? := by
  intro n
  induction n with
  | zero =>
    intro _
    refine ⟨s, rfl, h0, h1, hl, by simp [rowCoords], ?_⟩
    intro p
    rw [if_neg (by omega)]
  | succ j ih =>
    intro hj
    obtain ⟨s1, hr, e0, e1, el, ew, ed⟩ := ih (by omega)
    have hlt : i * c + j < R * c := by
      have h1 : (i + 1) * c ≤ R * c := Nat.mul_le_mul_right c hi
      have h2 : (i + 1) * c = i * c + c := by ring
      omega
    have hcond : i < s1.extent0 ∧ j < s1.extent1 ∧ i * s1.extent1 + j < s1.data.length := by
      rw [e0, e1, el]
      exact ⟨hi, by omega, hlt⟩
    have hk : initRow c i s (j + 1) = some
        { s1 with data := s1.data.set (i * s1.extent1 + j)
                            (castDataType (wrapIdx (wrapIdx (i * c) + j)))
                  written := s1.written ++ [(i, j)] } := by
      simp only [initRow, hr, View.assign, if_pos hcond]
    refine ⟨_, hk, e0, e1, ?_, ?_, ?_⟩
    · simp [el]
    · simp [ew, rowCoords, List.range_succ, List.append_assoc]
    · intro p
      simp only [e1, stored_value hR hi (show j < c by omega), List.getElem?_set, el]
      by_cases hp : i * c + j = p
      · subst hp
        simp [hlt]
      · rw [if_neg hp, ed p]
        by_cases hq : i * c ≤ p ∧ p < i * c + j
        · rw [if_pos hq, if_pos ⟨hq.1, by omega⟩]
        · rw [if_neg hq, if_neg (by omega)]

theorem initRows_spec {R c : Nat} (hR : R * c ≤ 2 ^ 32) (s : View)
    (h0 : s.extent0 = R) (h1 : s.extent1 = c) (hl : s.data.length = R * c) :
    ∀ n, n ≤ R → ∃ s1, initRows c s n = some s1 ∧
      s1.extent0 = R ∧ s1.extent1 = c ∧ s1.data.length = R * c ∧
      s1.written = s.written ++ allCoords c n ∧
      ∀ p, s1.data[p]? = if p < n * c then some p else s.data[p]? := by
  intro n
  induction n with
  | zero =>
    intro _
    exact ⟨s, rfl, h0, h1, hl, by simp [allCoords], by intro p; simp⟩
  | succ i ih =>
    intro hi
    obtain ⟨s1, hr, e0, e1, el, ew, ed⟩ := ih (by omega)
    obtain ⟨s2, hr2, f0, f1, fl, fw, fd⟩ :=
      initRow_spec hR (show i < R by omega) s1 e0 e1 el c (Nat.le_refl c)
    refine ⟨s2, by simp only [initRows, hr, hr2], f0, f1, fl, ?_, ?_⟩
    · simp [fw, ew, allCoords, List.range_succ, List.append_assoc]
    · intro p
      rw [fd p, ed p]
      have h2 : (i + 1) * c = i * c + c := by ring
      by_cases hp : p < i * c
      · rw [if_neg (by omega), if_pos hp, if_pos (by omega)]
      · by_cases hq : p < i * c + c
        · rw [if_pos ⟨by omega, hq⟩, if_pos (by omega)]
        · rw [if_neg (by omega), if_neg hp, if_neg (by omega)]

theorem count_rowCoords (i i2 j n : Nat) :
    (rowCoords i2 n).count (i, j) = if i = i2 ∧ j < n then 1 else 0 := by
  induction n with
  | zero => simp [rowCoords]
  | succ k ih =>
    have e : rowCoords i2 (k + 1) = rowCoords i2 k ++ [(i2, k)] := by
      simp [rowCoords, List.range_succ]
    rw [e, List.count_append, ih, List.count_singleton]
    simp only [beq_iff_eq, Prod.mk.injEq]
    split_ifs <;> omega

theorem count_allCoords (c i j n : Nat) :
    (allCoords c n).count (i, j) = if i < n ∧ j < c then 1 else 0 := by
  induction n with
  | zero => simp [allCoords]
  | succ k ih =>
    have e : allCoords c (k + 1) = allCoords c k ++ rowCoords k c := by
      simp [allCoords, List.range_succ]
    rw [e, List.count_append, ih, count_rowCoords]
    by_cases h1 : j < c
    · by_cases h2 : i < k
      · rw [if_pos ⟨h2, h1⟩, if_neg (by omega), if_pos ⟨by omega, h1⟩]
      · by_cases h3 : i = k
        · rw [if_neg (by omega), if_pos ⟨h3, h1⟩, if_pos ⟨by omega, h1⟩]
        · rw [if_neg (by omega), if_neg (by omega), if_neg (by omega)]
    · rw [if_neg (by omega), if_neg (by omega), if_neg (by omega)]

/-- C7: for a view with `R` rows and `numColumns` columns over
`R * numColumns ≤ 2 ^ 32` elements, on which nothing has been written yet,
`initializeMatrix` returns; afterwards every coordinate `(i, j)` with `i < R`,
`j < numColumns` has been written exactly once and holds `i * numColumns + j`,
no other coordinate has been written, and the element at linear position `p`
holds `p` for every `p < R * numColumns`. -/
theorem initializeMatrix_spec (span : View) (hl : span.data.length = span.extent0 * span.extent1)
    (hw : span.written = []) (hR : span.extent0 * span.extent1 ≤ 2 ^ 32) :
    ∃ s1, initializeMatrix span = some s1 ∧
      s1.extent0 = span.extent0 ∧ s1.extent1 = span.extent1 ∧
      (∀ i j, i < span.extent0 → j < span.extent1 →
        s1.written.count (i, j) = 1 ∧
        s1.data[i * span.extent1 + j]? = some (i * span.extent1 + j)) ∧
      (∀ q, q ∈ s1.written → q.1 < span.extent0 ∧ q.2 < span.extent1) ∧
      (∀ p, p < span.extent0 * span.extent1 → s1.data[p]? = some p) := by
  obtain ⟨s1, hr, e0, e1, _, ew, ed⟩ :=
    initRows_spec hR span rfl rfl hl span.extent0 (Nat.le_refl _)
  rw [hw, List.nil_append] at ew
  refine ⟨s1, hr, e0, e1, ?_, ?_, ?_⟩
  · intro i j hi hj
    constructor
    · rw [ew, count_allCoords, if_pos ⟨hi, hj⟩]
    · rw [ed, if_pos]
      have h1 : (i + 1) * span.extent1 ≤ span.extent0 * span.extent1 :=
        Nat.mul_le_mul_right _ hi
      have h2 : (i + 1) * span.extent1 = i * span.extent1 + span.extent1 := by ring
      omega
  · intro q hq
    have hc : 0 < s1.written.count q := List.count_pos_iff.2 hq
    rw [ew, count_allCoords] at hc
    by_cases h : q.1 < span.extent0 ∧ q.2 < span.extent1
    · exact h
    · rw [if_neg h] at hc
      omega
  · intro p hp
    rw [ed, if_pos hp]

/-- Witness of C7 on a `2 × 3` view. -/
theorem initializeMatrix_spec_witness :
    initializeMatrix ⟨2, 3, [9, 9, 9, 9, 9, 9], []⟩
      = some ⟨2, 3, [0, 1, 2, 3, 4, 5], [(0, 0), (0, 1), (0, 2), (1, 0), (1, 1), (1, 2)]⟩ ∧
    ∃ s1, initializeMatrix ⟨2, 3, [9, 9, 9, 9, 9, 9], []⟩ = some s1 ∧
      s1.extent0 = 2 ∧ s1.extent1 = 3 ∧
      (∀ i j, i < 2 → j < 3 →
        s1.written.count (i, j) = 1 ∧ s1.data[i * 3 + j]? = some (i * 3 + j)) ∧
      (∀ q, q ∈ s1.written → q.1 < 2 ∧ q.2 < 3) ∧
      (∀ p, p < 2 * 3 → s1.data[p]? = some p) :=
  ⟨by decide,
    initializeMatrix_spec ⟨2, 3, [9, 9, 9, 9, 9, 9], []⟩ (by decide) rfl (by decide)⟩

end MxM
